import Mathlib

/-!
# Verification of `as2_splicing`

Shallow embedding of the two source files of the repository:

* `src/bio_governance_engine.py` — the dependency resolver
  (`GenomicDependencyGraph.resolve_dependencies`) over a catalog of
  `GeneNode`s.
* `src/huffman_pheno_avl.py` — the Huffman-style phenotype codec
  (`build_phenotype_encoder`, `encode_phenotype`, `decode_phenotype`),
  including a faithful model of CPython's `heapq` (`heapify`, `heappop`,
  `heappush` with their `_siftup`/`_siftdown` helpers), since the build
  routine's behaviour is determined by those library routines.

Conventions:
* Python dicts are insertion-ordered association lists (`List (k × v)`);
  `dictGet` is subscript read, `dictSet` is subscript assignment.
* Python `set` membership is list membership (only membership is used).
* Runtime exceptions the source can actually raise are the constructors of
  `PyErr`; fallible functions return `Except PyErr _`.
* Frequencies are modelled as `Nat`; the source only adds and `<`-compares
  frequencies, so nothing below depends on the numeric domain.
* Bit strings are `List Char` ('0'/'1' for produced codes; decode accepts
  arbitrary characters, as the source does).
* The imperative `while` loops of `heapq` and of the tree-merging phase are
  written with an explicit fuel argument that is a proved upper bound on the
  number of iterations (the wrappers pass exactly the bound that makes the
  fueled function agree with the unbounded loop); this keeps every
  definition structurally recursive and kernel-evaluable.
-/

/-- Runtime errors the embedded code can raise:
`IndexError` from `heap[0]` on an empty heap, `KeyError` from `codes[trait]`
on a missing key, `AttributeError` from `None.trait` in decode. -/
inductive PyErr where
  | indexError
  | keyError
  | attributeError
  deriving DecidableEq, Repr

/-- Python dict subscript read `d[k]` (insertion-ordered association list;
keys are unique for every dict the embedded code constructs, so first match
is the unique match). Returns `none` where Python raises `KeyError`. -/
def dictGet {α β : Type} [DecidableEq α] : List (α × β) → α → Option β
  | [], _ => none
  | (k, v) :: rest, key => if k = key then some v else dictGet rest key

/-- Python dict subscript assignment `d[k] = v`: overwrite in place if the
key exists, else append (insertion order preserved). -/
def dictSet {α β : Type} [DecidableEq α] (d : List (α × β)) (key : α) (val : β) :
    List (α × β) :=
  if (dictGet d key).isSome then
    d.map (fun p => if p.1 = key then (p.1, val) else p)
  else
    d ++ [(key, val)]

/-! ## Dependency resolver (`src/bio_governance_engine.py`) -/

/-- `GeneNode` dataclass: id, name, resistance factor (a Python float, here
`Rat`; the resolver never reads it), and the list of prerequisite gene ids. -/
structure GeneNode where
  id : String
  name : String
  resistance_factor : Rat
  dependencies : List String
  deriving DecidableEq, Repr

/-- `GenomicDependencyGraph`: `nodes` is the dict id → `GeneNode`;
`active_strains` is carried but never read by the resolver. -/
structure GenomicDependencyGraph where
  nodes : List (String × GeneNode)
  active_strains : List (String × List String)
  deriving DecidableEq, Repr

/-- `GenomicDependencyGraph.add_gene`: `self.nodes[gene.id] = gene`. -/
def add_gene (g : GenomicDependencyGraph) (gene : GeneNode) : GenomicDependencyGraph :=
  { g with nodes := dictSet g.nodes gene.id gene }

/-- The `for dep_id in target.dependencies` loop of `resolve_dependencies`.
Each iteration only reads `strain_genome`; the state pair is threaded
through unchanged, mirroring that the method body contains no mutation. -/
def depLoop (g : GenomicDependencyGraph) (strain_genome : List String) :
    List String → (GenomicDependencyGraph × List String) × Bool
  | [] => ((g, strain_genome), true)
  | dep_id :: rest =>
    if strain_genome.contains dep_id then depLoop g strain_genome rest
    else ((g, strain_genome), false)

/-- `GenomicDependencyGraph.resolve_dependencies(strain_genome, target_gene_id)`,
state-passing form: returns the (unchanged) catalog and possessed set
together with the boolean result. -/
def resolve_dependencies (g : GenomicDependencyGraph) (strain_genome : List String)
    (target_gene_id : String) : (GenomicDependencyGraph × List String) × Bool :=
  match dictGet g.nodes target_gene_id with
  | none => ((g, strain_genome), false)
  | some target => depLoop g strain_genome target.dependencies

/-! ## Huffman codec (`src/huffman_pheno_avl.py`) -/

/-- `HuffmanNode`. The Python class stores `trait` (a symbol or `None`),
`frequency`, and optional `left`/`right` children.  The source constructs
exactly two shapes: `HuffmanNode(trait, freq)` with both children `None`
(a leaf), and a merged node with `trait = None` and both children present
(an internal node); the two constructors are those two shapes.  The
write-only `code` field (assigned but never read) is omitted. -/
inductive HuffmanNode (α : Type) where
  | leaf (trait : α) (frequency : Nat)
  | internal (frequency : Nat) (left : HuffmanNode α) (right : HuffmanNode α)
  deriving DecidableEq, Repr

/-- The `frequency` field. -/
def HuffmanNode.frequency {α : Type} : HuffmanNode α → Nat
  | .leaf _ f => f
  | .internal f _ _ => f

/-- Whether the node is a merged (internal) node, i.e. `trait is None`
with both children present. -/
def HuffmanNode.isInternalNode {α : Type} : HuffmanNode α → Bool
  | .leaf _ _ => false
  | .internal _ _ _ => true

/-- Symbols at the leaves, in left-to-right order. -/
def leafTraits {α : Type} : HuffmanNode α → List α
  | .leaf t _ => [t]
  | .internal _ l r => leafTraits l ++ leafTraits r

instance {α : Type} [Inhabited α] : Inhabited (HuffmanNode α) := ⟨.leaf default 0⟩

/-- `HuffmanNode.__lt__`: compares frequencies only. -/
def nodeLt {α : Type} (a b : HuffmanNode α) : Bool := a.frequency < b.frequency

/-! ### CPython `heapq` (the library routines `build_phenotype_encoder` calls)

Translated from CPython's `Lib/heapq.py`: `_siftdown`, `_siftup`,
`heapify`, `heappop`, `heappush`.  The loops carry fuel: `_siftdown`'s
`pos` strictly decreases, so `pos` iterations suffice; `_siftup`'s `pos`
strictly increases below `endpos`, so `endpos` iterations suffice. -/

/-- The `while pos > startpos` loop of `_siftdown` (`newitem = heap[pos]`
has already been read by the wrapper). -/
def siftdownLoop {H : Type} [Inhabited H] (lt : H → H → Bool) (startpos : Nat)
    (newitem : H) : Nat → List H → Nat → List H
  | 0, heap, pos => heap.set pos newitem
  | fuel + 1, heap, pos =>
    if startpos < pos then
      let parentpos := (pos - 1) / 2
      let parent := heap.getD parentpos default
      if lt newitem parent then
        siftdownLoop lt startpos newitem fuel (heap.set pos parent) parentpos
      else heap.set pos newitem
    else heap.set pos newitem

/-- `heapq._siftdown(heap, startpos, pos)`. -/
def pySiftdown {H : Type} [Inhabited H] (lt : H → H → Bool) (heap : List H)
    (startpos pos : Nat) : List H :=
  siftdownLoop lt startpos (heap.getD pos default) pos heap pos

/-- The `while childpos < endpos` loop of `_siftup`, followed by the final
`heap[pos] = newitem; _siftdown(heap, startpos, pos)`. -/
def siftupLoop {H : Type} [Inhabited H] (lt : H → H → Bool) (startpos endpos : Nat)
    (newitem : H) : Nat → List H → Nat → List H
  | 0, heap, pos => pySiftdown lt (heap.set pos newitem) startpos pos
  | fuel + 1, heap, pos =>
    if 2 * pos + 1 < endpos then
      let childpos :=
        if 2 * pos + 2 < endpos &&
            !(lt (heap.getD (2 * pos + 1) default) (heap.getD (2 * pos + 2) default))
        then 2 * pos + 2
        else 2 * pos + 1
      siftupLoop lt startpos endpos newitem fuel
        (heap.set pos (heap.getD childpos default)) childpos
    else pySiftdown lt (heap.set pos newitem) startpos pos

/-- `heapq._siftup(heap, pos)` (with `endpos = len(heap)`). -/
def pySiftup {H : Type} [Inhabited H] (lt : H → H → Bool) (heap : List H)
    (pos : Nat) : List H :=
  siftupLoop lt pos heap.length (heap.getD pos default) heap.length heap pos

/-- The `for i in reversed(range(n//2))` loop of `heapq.heapify`. -/
def heapifyLoop {H : Type} [Inhabited H] (lt : H → H → Bool) : Nat → List H → List H
  | 0, heap => heap
  | i + 1, heap => heapifyLoop lt i (pySiftup lt heap i)

/-- `heapq.heapify(heap)`. -/
def pyHeapify {H : Type} [Inhabited H] (lt : H → H → Bool) (heap : List H) : List H :=
  heapifyLoop lt (heap.length / 2) heap

/-- `heapq.heappop(heap)`: `none` models the `IndexError` on an empty heap;
otherwise returns the popped item and the remaining heap. -/
def pyHeappop {H : Type} [Inhabited H] (lt : H → H → Bool) (heap : List H) :
    Option (H × List H) :=
  match heap with
  | [] => none
  | _ :: _ =>
    let lastelt := heap.getLastD default
    let rest := heap.dropLast
    if rest.isEmpty then some (lastelt, rest)
    else some (rest.getD 0 default, pySiftup lt (rest.set 0 lastelt) 0)

/-- `heapq.heappush(heap, item)`. -/
def pyHeappush {H : Type} [Inhabited H] (lt : H → H → Bool) (heap : List H)
    (item : H) : List H :=
  pySiftdown lt (heap ++ [item]) 0 heap.length

/-! ### `build_phenotype_encoder` -/

/-- The `while len(heap) > 1` merge loop: pop the two smallest nodes, merge
them into an internal node (first pop becomes `left`), push the merge.
Each iteration shrinks the heap by one, so `len(heap)` is enough fuel. -/
def buildLoop {α : Type} [Inhabited α] : Nat → List (HuffmanNode α) → List (HuffmanNode α)
  | 0, heap => heap
  | fuel + 1, heap =>
    if 1 < heap.length then
      match pyHeappop nodeLt heap with
      | none => heap
      | some (left, heap1) =>
        match pyHeappop nodeLt heap1 with
        | none => heap1
        | some (right, heap2) =>
          buildLoop fuel
            (pyHeappush nodeLt heap2
              (.internal (left.frequency + right.frequency) left right))
    else heap

/-- The nested `generate_codes(node, current_code)`: assign the running code
at every node whose `trait` is not `None` (exactly the leaves), recursing
left with `current_code + '0'` and right with `current_code + '1'`.  The
`codes` dict is threaded in Python's traversal/insertion order. -/
def generate_codes {α : Type} [DecidableEq α] :
    HuffmanNode α → List Char → List (α × List Char) → List (α × List Char)
  | .leaf t _, current_code, codes => dictSet codes t current_code
  | .internal _ l r, current_code, codes =>
    generate_codes r (current_code ++ ['1']) (generate_codes l (current_code ++ ['0']) codes)

/-- `build_phenotype_encoder(trait_frequencies)`: heapify the leaves, run
the merge loop, read `heap[0]` (IndexError when the table was empty), and
generate the code dict.  Returns `(codes, root)`. -/
def build_phenotype_encoder {α : Type} [DecidableEq α] [Inhabited α]
    (trait_frequencies : List (α × Nat)) :
    Except PyErr (List (α × List Char) × HuffmanNode α) :=
  let heap := pyHeapify nodeLt (trait_frequencies.map fun p => HuffmanNode.leaf p.1 p.2)
  match buildLoop heap.length heap with
  | [] => .error .indexError
  | root :: _ => .ok (generate_codes root [] [], root)

/-! ### `encode_phenotype` / `decode_phenotype` -/

/-- The `''.join(codes[trait] for trait in phenotype_traits)` expression:
left-to-right concatenation; the first missing trait raises `KeyError`. -/
def encodeJoin {α : Type} [DecidableEq α] (codes : List (α × List Char)) :
    List α → Except PyErr (List Char)
  | [] => .ok []
  | trait :: rest =>
    match dictGet codes trait with
    | none => .error .keyError
    | some c =>
      match encodeJoin codes rest with
      | .ok s => .ok (c ++ s)
      | .error e => .error e

/-- `encode_phenotype(phenotype_traits, trait_frequencies)`: rebuilds the
codec from the frequency table, then joins the per-trait codes.  Returns
`(encoded, codes)` as the source does. -/
def encode_phenotype {α : Type} [DecidableEq α] [Inhabited α]
    (phenotype_traits : List α) (trait_frequencies : List (α × Nat)) :
    Except PyErr (List Char × List (α × List Char)) :=
  match build_phenotype_encoder trait_frequencies with
  | .error e => .error e
  | .ok (codes, _tree) =>
    match encodeJoin codes phenotype_traits with
    | .error e => .error e
    | .ok encoded => .ok (encoded, codes)

/-- The `for bit in encoded_str` loop of `decode_phenotype`.  From the
current node, `bit == '0'` moves to `left` and any other character moves to
`right`; a node with a trait (a leaf) emits and resets to the root.  When
the current node is a leaf, its children are `None`, so the subsequent
`current_node.trait` access raises `AttributeError`. -/
def decodeLoop {α : Type} (huffman_tree : HuffmanNode α) :
    List Char → HuffmanNode α → Except PyErr (List α)
  | [], _ => .ok []
  | bit :: rest, current =>
    match current with
    | .leaf _ _ => .error .attributeError
    | .internal _ l r =>
      match (if bit = '0' then l else r) with
      | .leaf t _ =>
        match decodeLoop huffman_tree rest huffman_tree with
        | .ok ds => .ok (t :: ds)
        | .error e => .error e
      | .internal f a b => decodeLoop huffman_tree rest (.internal f a b)

/-- `decode_phenotype(encoded_str, huffman_tree)`. -/
def decode_phenotype {α : Type} (encoded_str : List Char)
    (huffman_tree : HuffmanNode α) : Except PyErr (List α) :=
  decodeLoop huffman_tree encoded_str huffman_tree

/-- Collapse a character the way decode's branch test does: `'0'` stays,
anything else acts as `'1'`. -/
def collapseBit (c : Char) : Char := if c = '0' then '0' else '1'

/-- Proof-side pure view of the code assignment: the list of
(trait, code) pairs in traversal order, without the dict threading. -/
def codesList {α : Type} : HuffmanNode α → List Char → List (α × List Char)
  | .leaf t _, current_code => [(t, current_code)]
  | .internal _ l r, current_code =>
    codesList l (current_code ++ ['0']) ++ codesList r (current_code ++ ['1'])

/-- Proof-side view of a heap's content: the multiset of all leaf symbols
of all trees currently on the heap. -/
def heapTraits {α : Type} (l : List (HuffmanNode α)) : Multiset α :=
  ((l : List (HuffmanNode α)) : Multiset (HuffmanNode α)).bind
    (fun n => ((leafTraits n : List α) : Multiset α))

/-! ## General list helpers -/

/-- Transitivity of the list-prefix relation. -/
theorem pfxTrans {γ : Type} {l₁ l₂ l₃ : List γ} (h₁ : l₁ <+: l₂) (h₂ : l₂ <+: l₃) :
    l₁ <+: l₃ := by
  obtain ⟨t₁, rfl⟩ := h₁
  obtain ⟨t₂, rfl⟩ := h₂
  exact ⟨t₁ ++ t₂, by rw [List.append_assoc]⟩

/-- Two equal-length lists that are both prefixes of the same list are equal. -/
theorem pfxEqOfLen {γ : Type} {p₁ p₂ l : List γ} (h₁ : p₁ <+: l) (h₂ : p₂ <+: l)
    (hlen : p₁.length = p₂.length) : p₁ = p₂ := by
  obtain ⟨t₁, ht₁⟩ := h₁
  obtain ⟨t₂, ht₂⟩ := h₂
  exact (List.append_inj (ht₁.trans ht₂.symm) hlen).1

/-- Setting an index does not change reads at other indices. -/
theorem getD_set_ne {H : Type} (l : List H) (i j : Nat) (a d : H) (h : i ≠ j) :
    (l.set i a).getD j d = l.getD j d := by
  simp [List.getD_eq_getElem?_getD, List.getElem?_set_ne h]

/-- Writing back the value already at an index is the identity. -/
theorem set_getD_self {H : Type} (l : List H) (i : Nat) (d : H) (h : i < l.length) :
    l.set i (l.getD i d) = l := by
  induction l generalizing i with
  | nil => simp at h
  | cons x xs ih =>
    cases i with
    | zero => simp [List.getD]
    | succ n =>
      simp only [List.set, List.getD_cons_succ]
      rw [ih n (by simpa using h)]

/-- The multiset effect of `List.set`: replace the element at `i`. -/
theorem multiset_set {H : Type} (l : List H) (i : Nat) (a d : H) (h : i < l.length) :
    ((l.set i a : List H) : Multiset H) + {l.getD i d} = (l : Multiset H) + {a} := by
  induction l generalizing i with
  | nil => simp at h
  | cons x xs ih =>
    cases i with
    | zero =>
      simp only [List.set, List.getD_cons_zero, ← Multiset.cons_coe]
      rw [add_comm _ ({x} : Multiset H), add_comm _ ({a} : Multiset H),
        Multiset.singleton_add, Multiset.singleton_add, Multiset.cons_swap]
    | succ n =>
      simp only [List.set, List.getD_cons_succ, ← Multiset.cons_coe, Multiset.cons_add]
      rw [ih n (by simpa using h)]

/-- Writing `l[j]` over index `i` and then `x` over index `j` has the same
multiset effect as writing `x` over index `i`. -/
theorem multiset_set_swap {H : Type} (l : List H) (i j : Nat) (x d : H) (hij : i ≠ j)
    (hi : i < l.length) (hj : j < l.length) :
    (((l.set i (l.getD j d)).set j x : List H) : Multiset H) = ((l.set i x : List H) : Multiset H) := by
  have hj' : j < (l.set i (l.getD j d)).length := by simpa using hj
  have h1 := multiset_set (l.set i (l.getD j d)) j x d hj'
  rw [getD_set_ne l i j _ d hij] at h1
  have h2 := multiset_set l i (l.getD j d) d hi
  have h3 := multiset_set l i x d hi
  classical
  apply Multiset.ext.mpr
  intro b
  have c1 := congrArg (Multiset.count b) h1
  have c2 := congrArg (Multiset.count b) h2
  have c3 := congrArg (Multiset.count b) h3
  simp only [Multiset.count_add] at c1 c2 c3
  omega

/-! ## Length and multiset lemmas for the `heapq` model -/

theorem siftdownLoop_length {H : Type} [Inhabited H] (lt : H → H → Bool) (sp : Nat)
    (x : H) (fuel : Nat) : ∀ (heap : List H) (pos : Nat),
    (siftdownLoop lt sp x fuel heap pos).length = heap.length := by
  induction fuel with
  | zero => intro heap pos; simp [siftdownLoop]
  | succ n ih =>
    intro heap pos
    simp only [siftdownLoop]
    split
    · split
      · rw [ih]; simp
      · simp
    · simp

theorem pySiftdown_length {H : Type} [Inhabited H] (lt : H → H → Bool) (heap : List H)
    (sp pos : Nat) : (pySiftdown lt heap sp pos).length = heap.length := by
  simp [pySiftdown, siftdownLoop_length]

theorem siftupLoop_length {H : Type} [Inhabited H] (lt : H → H → Bool) (sp ep : Nat)
    (x : H) (fuel : Nat) : ∀ (heap : List H) (pos : Nat),
    (siftupLoop lt sp ep x fuel heap pos).length = heap.length := by
  induction fuel with
  | zero => intro heap pos; simp [siftupLoop, pySiftdown_length]
  | succ n ih =>
    intro heap pos
    simp only [siftupLoop]
    split
    · rw [ih]; simp
    · simp [pySiftdown_length]

theorem pySiftup_length {H : Type} [Inhabited H] (lt : H → H → Bool) (heap : List H)
    (pos : Nat) : (pySiftup lt heap pos).length = heap.length := by
  simp [pySiftup, siftupLoop_length]

theorem heapifyLoop_length {H : Type} [Inhabited H] (lt : H → H → Bool) (i : Nat) :
    ∀ heap : List H, (heapifyLoop lt i heap).length = heap.length := by
  induction i with
  | zero => intro heap; rfl
  | succ n ih => intro heap; rw [heapifyLoop, ih, pySiftup_length]

theorem pyHeapify_length {H : Type} [Inhabited H] (lt : H → H → Bool) (heap : List H) :
    (pyHeapify lt heap).length = heap.length := by
  simp [pyHeapify, heapifyLoop_length]

theorem pyHeappush_length {H : Type} [Inhabited H] (lt : H → H → Bool) (heap : List H)
    (item : H) : (pyHeappush lt heap item).length = heap.length + 1 := by
  simp [pyHeappush, pySiftdown_length]

theorem pyHeappop_isSome {H : Type} [Inhabited H] (lt : H → H → Bool) (heap : List H)
    (h : heap ≠ []) : ∃ x rest, pyHeappop lt heap = some (x, rest) := by
  match heap with
  | [] => exact absurd rfl h
  | y :: ys =>
    simp only [pyHeappop]
    split
    · exact ⟨_, _, rfl⟩
    · exact ⟨_, _, rfl⟩

theorem pyHeappop_length {H : Type} [Inhabited H] (lt : H → H → Bool) (heap : List H)
    (x : H) (rest : List H) (h : pyHeappop lt heap = some (x, rest)) :
    rest.length + 1 = heap.length := by
  match heap with
  | [] => simp [pyHeappop] at h
  | y :: ys =>
    simp only [pyHeappop] at h
    split at h
    · rename_i hemp
      obtain ⟨rfl, rfl⟩ := Prod.mk.injEq .. ▸ (Option.some.injEq .. ▸ h)
      have : (y :: ys).dropLast = [] := by simpa [List.isEmpty_iff] using hemp
      have hlen : (y :: ys).length - 1 = 0 := by rw [← List.length_dropLast, this]; rfl
      simp at hlen
      simp [hlen]
    · rename_i hemp
      obtain ⟨rfl, rfl⟩ := Prod.mk.injEq .. ▸ (Option.some.injEq .. ▸ h)
      rw [pySiftup_length, List.length_set, List.length_dropLast]
      simp

theorem siftdownLoop_multiset {H : Type} [Inhabited H] (lt : H → H → Bool) (sp : Nat)
    (x : H) (fuel : Nat) : ∀ (heap : List H) (pos : Nat), pos < heap.length →
    ((siftdownLoop lt sp x fuel heap pos : List H) : Multiset H) = ((heap.set pos x : List H) : Multiset H) := by
  induction fuel with
  | zero => intro heap pos _; simp [siftdownLoop]
  | succ n ih =>
    intro heap pos hpos
    simp only [siftdownLoop]
    split
    · rename_i hsp
      split
      · have hlt : (pos - 1) / 2 < pos := by
          have := Nat.div_le_self (pos - 1) 2
          omega
        rw [ih (heap.set pos (heap.getD ((pos - 1) / 2) default)) ((pos - 1) / 2)
          (by simpa using Nat.lt_trans hlt hpos)]
        exact multiset_set_swap heap pos ((pos - 1) / 2) x default (by omega) hpos
          (Nat.lt_trans hlt hpos)
      · rfl
    · rfl

theorem pySiftdown_multiset {H : Type} [Inhabited H] (lt : H → H → Bool) (heap : List H)
    (sp pos : Nat) (hpos : pos < heap.length) :
    ((pySiftdown lt heap sp pos : List H) : Multiset H) = (heap : Multiset H) := by
  rw [pySiftdown, siftdownLoop_multiset lt sp _ pos heap pos hpos,
    set_getD_self heap pos default hpos]

theorem siftupLoop_multiset {H : Type} [Inhabited H] (lt : H → H → Bool) (sp ep : Nat)
    (x : H) (fuel : Nat) : ∀ (heap : List H) (pos : Nat), pos < heap.length →
    ep ≤ heap.length →
    ((siftupLoop lt sp ep x fuel heap pos : List H) : Multiset H) = ((heap.set pos x : List H) : Multiset H) := by
  induction fuel with
  | zero =>
    intro heap pos hpos _
    rw [siftupLoop, pySiftdown_multiset lt _ sp pos (by simpa using hpos)]
  | succ n ih =>
    intro heap pos hpos hep
    simp only [siftupLoop]
    split
    · rename_i hchild
      set cp := if 2 * pos + 2 < ep &&
          !(lt (heap.getD (2 * pos + 1) default) (heap.getD (2 * pos + 2) default))
        then 2 * pos + 2 else 2 * pos + 1 with hcp
      have hcp_lt : cp < ep ∧ pos < cp := by
        rw [hcp]
        split
        · rename_i hc
          have := (Bool.and_eq_true ..).mp hc
          simp only [decide_eq_true_eq] at this
          exact ⟨this.1, by omega⟩
        · exact ⟨hchild, by omega⟩
      have hcp_len : cp < heap.length := lt_of_lt_of_le hcp_lt.1 hep
      rw [ih (heap.set pos (heap.getD cp default)) cp (by simpa using hcp_len)
        (by simpa using hep)]
      exact multiset_set_swap heap pos cp x default (by omega) hpos hcp_len
    · rw [pySiftdown_multiset lt _ sp pos (by simpa using hpos)]

theorem pySiftup_multiset {H : Type} [Inhabited H] (lt : H → H → Bool) (heap : List H)
    (pos : Nat) (hpos : pos < heap.length) :
    ((pySiftup lt heap pos : List H) : Multiset H) = (heap : Multiset H) := by
  rw [pySiftup, siftupLoop_multiset lt pos heap.length _ heap.length heap pos hpos le_rfl,
    set_getD_self heap pos default hpos]

theorem heapifyLoop_multiset {H : Type} [Inhabited H] (lt : H → H → Bool) (i : Nat) :
    ∀ heap : List H, i ≤ heap.length →
    ((heapifyLoop lt i heap : List H) : Multiset H) = (heap : Multiset H) := by
  induction i with
  | zero => intro heap _; rfl
  | succ n ih =>
    intro heap hi
    rw [heapifyLoop, ih (pySiftup lt heap n) (by rw [pySiftup_length]; omega),
      pySiftup_multiset lt heap n (by omega)]

theorem pyHeapify_multiset {H : Type} [Inhabited H] (lt : H → H → Bool) (heap : List H) :
    ((pyHeapify lt heap : List H) : Multiset H) = (heap : Multiset H) :=
  heapifyLoop_multiset lt (heap.length / 2) heap (Nat.div_le_self _ 2)

/-- A nonempty list is its `dropLast` followed by its last element. -/
theorem dropLast_getLastD {H : Type} : ∀ (x : H) (xs : List H) (d : H),
    (x :: xs).dropLast ++ [(x :: xs).getLastD d] = x :: xs := by
  intro x xs
  induction xs generalizing x with
  | nil => intro d; rfl
  | cons y ys ih =>
    intro d
    rw [List.getLastD_cons d x (y :: ys)]
    show x :: ((y :: ys).dropLast ++ [(y :: ys).getLastD x]) = x :: (y :: ys)
    rw [ih y x]

theorem pyHeappop_multiset {H : Type} [Inhabited H] (lt : H → H → Bool) (heap : List H)
    (x : H) (rest : List H) (h : pyHeappop lt heap = some (x, rest)) :
    (heap : Multiset H) = x ::ₘ (rest : Multiset H) := by
  match heap with
  | [] => simp [pyHeappop] at h
  | y :: ys =>
    simp only [pyHeappop] at h
    split at h
    · rename_i hemp
      obtain ⟨rfl, rfl⟩ := Prod.mk.injEq .. ▸ (Option.some.injEq .. ▸ h)
      have hnil : (y :: ys).dropLast = [] := by simpa [List.isEmpty_iff] using hemp
      have hys : ys = [] := by
        have := List.length_dropLast (y :: ys)
        rw [hnil] at this
        simpa using this.symm
      subst hys
      simp [List.getLastD_cons, Multiset.cons_coe]
    · rename_i hemp
      obtain ⟨rfl, rfl⟩ := Prod.mk.injEq .. ▸ (Option.some.injEq .. ▸ h)
      have hrest : (y :: ys).dropLast ≠ [] := by
        simpa [List.isEmpty_iff] using hemp
      have hlen : 0 < (y :: ys).dropLast.length := List.length_pos.mpr hrest
      rw [pySiftup_multiset lt _ 0 (by simpa using hlen)]
      have hms := multiset_set ((y :: ys).dropLast) 0 ((y :: ys).getLastD default)
        default hlen
      have hsplit : ((y :: ys : List H) : Multiset H) =
          (((y :: ys).dropLast : List H) : Multiset H) + {(y :: ys).getLastD default} := by
        conv_lhs => rw [← dropLast_getLastD y ys default]
        rw [← Multiset.coe_add]
        rfl
      rw [hsplit, ← hms, ← Multiset.singleton_add, add_comm]

theorem pyHeappush_multiset {H : Type} [Inhabited H] (lt : H → H → Bool) (heap : List H)
    (item : H) :
    ((pyHeappush lt heap item : List H) : Multiset H) = item ::ₘ (heap : Multiset H) := by
  rw [pyHeappush, pySiftdown_multiset lt (heap ++ [item]) 0 heap.length (by simp),
    ← Multiset.coe_add]
  rw [← Multiset.singleton_add, add_comm]
  rfl

/-! ## The merge loop -/

theorem buildLoop_one {α : Type} [Inhabited α] (fuel : Nat) (x : HuffmanNode α) :
    buildLoop fuel [x] = [x] := by
  cases fuel <;> simp [buildLoop]

theorem buildLoop_singleton {α : Type} [Inhabited α] (fuel : Nat) :
    ∀ heap : List (HuffmanNode α), heap ≠ [] → heap.length ≤ fuel →
    ∃ r, buildLoop fuel heap = [r] := by
  induction fuel with
  | zero =>
    intro heap hne hlen
    exact absurd (List.length_eq_zero.mp (Nat.le_zero.mp hlen)) hne
  | succ n ih =>
    intro heap hne hlen
    simp only [buildLoop]
    split
    · rename_i hgt
      obtain ⟨L, h1, hpop1⟩ := pyHeappop_isSome nodeLt heap hne
      have hlen1 := pyHeappop_length nodeLt heap L h1 hpop1
      obtain ⟨R, h2, hpop2⟩ := pyHeappop_isSome nodeLt h1
        (List.ne_nil_of_length_pos (by omega))
      have hlen2 := pyHeappop_length nodeLt h1 R h2 hpop2
      simp only [hpop1, hpop2]
      exact ih _ (List.ne_nil_of_length_pos (by rw [pyHeappush_length]; omega))
        (by rw [pyHeappush_length]; omega)
    · rename_i hle
      have : heap.length = 1 := by
        have := List.length_pos.mpr hne
        omega
      obtain ⟨r, hr⟩ := List.length_eq_one.mp this
      exact ⟨r, hr⟩

theorem buildLoop_internal {α : Type} [Inhabited α] (fuel : Nat) :
    ∀ heap : List (HuffmanNode α), 1 < heap.length → heap.length ≤ fuel →
    ∃ f a b, buildLoop fuel heap = [HuffmanNode.internal f a b] := by
  induction fuel with
  | zero => intro heap hgt hlen; omega
  | succ n ih =>
    intro heap hgt hlen
    simp only [buildLoop]
    rw [if_pos hgt]
    obtain ⟨L, h1, hpop1⟩ := pyHeappop_isSome nodeLt heap
      (List.ne_nil_of_length_pos (by omega))
    have hlen1 := pyHeappop_length nodeLt heap L h1 hpop1
    obtain ⟨R, h2, hpop2⟩ := pyHeappop_isSome nodeLt h1
      (List.ne_nil_of_length_pos (by omega))
    have hlen2 := pyHeappop_length nodeLt h1 R h2 hpop2
    simp only [hpop1, hpop2]
    by_cases hmore : 1 < heap.length - 1
    · exact ih _ (by rw [pyHeappush_length]; omega) (by rw [pyHeappush_length]; omega)
    · have hh2 : h2 = [] := List.length_eq_zero.mp (by omega)
      subst hh2
      have hpush : pyHeappush nodeLt ([] : List (HuffmanNode α))
          (HuffmanNode.internal (L.frequency + R.frequency) L R) =
          [HuffmanNode.internal (L.frequency + R.frequency) L R] := by
        simp [pyHeappush, pySiftdown, siftdownLoop]
      rw [hpush, buildLoop_one]
      exact ⟨_, _, _, rfl⟩

theorem heapTraits_cons {α : Type} (x : HuffmanNode α) (l : List (HuffmanNode α)) :
    heapTraits (x :: l) = ((leafTraits x : List α) : Multiset α) + heapTraits l := by
  simp [heapTraits, ← Multiset.cons_coe, Multiset.cons_bind]

theorem heapTraits_congr {α : Type} {l₁ l₂ : List (HuffmanNode α)}
    (h : (l₁ : Multiset (HuffmanNode α)) = (l₂ : Multiset (HuffmanNode α))) :
    heapTraits l₁ = heapTraits l₂ := by
  simp only [heapTraits, h]

theorem buildLoop_traits {α : Type} [Inhabited α] (fuel : Nat) :
    ∀ heap : List (HuffmanNode α), heapTraits (buildLoop fuel heap) = heapTraits heap := by
  induction fuel with
  | zero => intro heap; rfl
  | succ n ih =>
    intro heap
    simp only [buildLoop]
    split
    · rename_i hgt
      obtain ⟨L, h1, hpop1⟩ := pyHeappop_isSome nodeLt heap
        (List.ne_nil_of_length_pos (by omega))
      have hlen1 := pyHeappop_length nodeLt heap L h1 hpop1
      obtain ⟨R, h2, hpop2⟩ := pyHeappop_isSome nodeLt h1
        (List.ne_nil_of_length_pos (by omega))
      simp only [hpop1, hpop2]
      rw [ih]
      have e1 := pyHeappop_multiset nodeLt heap L h1 hpop1
      have e2 := pyHeappop_multiset nodeLt h1 R h2 hpop2
      have e3 := pyHeappush_multiset nodeLt h2
        (HuffmanNode.internal (L.frequency + R.frequency) L R)
      rw [heapTraits_congr e3, heapTraits_cons, heapTraits_congr e1, heapTraits_cons,
        heapTraits_congr e2, heapTraits_cons]
      show ((leafTraits L ++ leafTraits R : List α) : Multiset α) + heapTraits h2 = _
      rw [← Multiset.coe_add]
      rw [add_assoc]
    · rfl

theorem heapTraits_nil {α : Type} : heapTraits ([] : List (HuffmanNode α)) = 0 := rfl

theorem heapTraits_leaves {α : Type} : ∀ tf : List (α × Nat),
    heapTraits (tf.map fun p => HuffmanNode.leaf p.1 p.2) =
      ((tf.map Prod.fst : List α) : Multiset α) := by
  intro tf
  induction tf with
  | nil => rfl
  | cons p rest ih =>
    simp only [List.map_cons, heapTraits_cons, ih, leafTraits, ← Multiset.cons_coe,
      ← Multiset.singleton_add]
    rfl

/-- For a nonempty frequency table, `build_phenotype_encoder` succeeds; the
root's leaf symbols are exactly the table's keys (as a multiset), and with
at least two entries the root is an internal (merged) node. -/
theorem build_ok {α : Type} [DecidableEq α] [Inhabited α] (tf : List (α × Nat))
    (hne : tf ≠ []) :
    ∃ root, build_phenotype_encoder tf = .ok (generate_codes root [] [], root) ∧
      ((leafTraits root : List α) : Multiset α) = ((tf.map Prod.fst : List α) : Multiset α) ∧
      (2 ≤ tf.length → root.isInternalNode = true) := by
  have hlen : (pyHeapify nodeLt (tf.map fun p => HuffmanNode.leaf p.1 p.2)).length
      = tf.length := by
    rw [pyHeapify_length, List.length_map]
  have hne' : pyHeapify nodeLt (tf.map fun p => HuffmanNode.leaf p.1 p.2) ≠ [] :=
    List.ne_nil_of_length_pos (by rw [hlen]; exact List.length_pos.mpr hne)
  obtain ⟨root, hroot⟩ := buildLoop_singleton
    (pyHeapify nodeLt (tf.map fun p => HuffmanNode.leaf p.1 p.2)).length
    (pyHeapify nodeLt (tf.map fun p => HuffmanNode.leaf p.1 p.2)) hne' le_rfl
  refine ⟨root, ?_, ?_, ?_⟩
  · simp only [build_phenotype_encoder]
    rw [hroot]
  · have htr := buildLoop_traits
      (α := α) (pyHeapify nodeLt (tf.map fun p => HuffmanNode.leaf p.1 p.2)).length
      (pyHeapify nodeLt (tf.map fun p => HuffmanNode.leaf p.1 p.2))
    rw [hroot] at htr
    rw [heapTraits_cons, heapTraits_nil, add_zero] at htr
    rw [htr, heapTraits_congr (pyHeapify_multiset nodeLt _), heapTraits_leaves]
  · intro h2
    obtain ⟨f, a, b, heq⟩ := buildLoop_internal
      (pyHeapify nodeLt (tf.map fun p => HuffmanNode.leaf p.1 p.2)).length
      (pyHeapify nodeLt (tf.map fun p => HuffmanNode.leaf p.1 p.2))
      (by omega) le_rfl
    rw [hroot] at heq
    obtain ⟨rfl, -⟩ := List.cons.injEq .. ▸ heq
    rfl

/-! ## The generated code table -/

theorem codesList_keys {α : Type} : ∀ (n : HuffmanNode α) (cur : List Char),
    (codesList n cur).map Prod.fst = leafTraits n := by
  intro n
  induction n with
  | leaf t f => intro cur; rfl
  | internal f l r ihl ihr =>
    intro cur
    simp [codesList, leafTraits, ihl, ihr]

theorem codesList_pfx {α : Type} : ∀ (n : HuffmanNode α) (cur : List Char)
    (s : α) (c : List Char), (s, c) ∈ codesList n cur → cur <+: c := by
  intro n
  induction n with
  | leaf t f =>
    intro cur s c hmem
    simp only [codesList, List.mem_singleton, Prod.mk.injEq] at hmem
    exact hmem.2 ▸ List.prefix_refl cur
  | internal f l r ihl ihr =>
    intro cur s c hmem
    rw [codesList, List.mem_append] at hmem
    rcases hmem with hmem | hmem
    · exact pfxTrans ⟨['0'], rfl⟩ (ihl _ s c hmem)
    · exact pfxTrans ⟨['1'], rfl⟩ (ihr _ s c hmem)

/-- Prefix-freeness of the traversal-generated codes: entries for distinct
symbols are never prefixes of one another (in particular they differ). -/
theorem codesList_prefixFree {α : Type} : ∀ (n : HuffmanNode α) (cur : List Char)
    (s t : α) (cs ct : List Char), (s, cs) ∈ codesList n cur →
    (t, ct) ∈ codesList n cur → s ≠ t → ¬ (cs <+: ct) := by
  intro n
  induction n with
  | leaf u f =>
    intro cur s t cs ct hs ht hst
    simp only [codesList, List.mem_singleton, Prod.mk.injEq] at hs ht
    exact absurd (hs.1.trans ht.1.symm) hst
  | internal f l r ihl ihr =>
    intro cur s t cs ct hs ht hst
    rw [codesList, List.mem_append] at hs ht
    rcases hs with hs | hs <;> rcases ht with ht | ht
    · exact ihl _ s t cs ct hs ht hst
    · intro hpre
      have h0 : (cur ++ ['0']) <+: ct := pfxTrans (codesList_pfx l _ s cs hs) hpre
      have h1 : (cur ++ ['1']) <+: ct := codesList_pfx r _ t ct ht
      have := pfxEqOfLen h0 h1 (by simp)
      simp at this
    · intro hpre
      have h1 : (cur ++ ['1']) <+: ct := pfxTrans (codesList_pfx r _ s cs hs) hpre
      have h0 : (cur ++ ['0']) <+: ct := codesList_pfx l _ t ct ht
      have := pfxEqOfLen h0 h1 (by simp)
      simp at this
    · exact ihr _ s t cs ct hs ht hst

theorem dictGet_none_of_not_key {α β : Type} [DecidableEq α] :
    ∀ (d : List (α × β)) (k : α), k ∉ d.map Prod.fst → dictGet d k = none := by
  intro d
  induction d with
  | nil => intro k _; rfl
  | cons p rest ih =>
    intro k hk
    simp only [List.map_cons, List.mem_cons] at hk
    push_neg at hk
    obtain ⟨p1, p2⟩ := p
    rw [dictGet, if_neg (fun h => hk.1 h.symm)]
    exact ih k hk.2

theorem dictGet_append_left_none {α β : Type} [DecidableEq α] :
    ∀ (d₁ d₂ : List (α × β)) (k : α), dictGet d₁ k = none →
    dictGet (d₁ ++ d₂) k = dictGet d₂ k := by
  intro d₁
  induction d₁ with
  | nil => intro d₂ k _; rfl
  | cons p rest ih =>
    intro d₂ k hk
    obtain ⟨p1, p2⟩ := p
    rw [dictGet] at hk
    split at hk
    · exact absurd hk (by simp)
    · rename_i hne
      rw [List.cons_append, dictGet, if_neg hne]
      exact ih d₂ k hk

theorem dictSet_fresh {α β : Type} [DecidableEq α] (d : List (α × β)) (k : α) (v : β)
    (hk : dictGet d k = none) : dictSet d k v = d ++ [(k, v)] := by
  rw [dictSet, if_neg (by rw [hk]; simp)]

/-- With pairwise-distinct leaf symbols that are all fresh for the incoming
dict, the imperative `generate_codes` appends exactly the traversal list. -/
theorem generate_codes_eq_codesList {α : Type} [DecidableEq α] :
    ∀ (n : HuffmanNode α) (cur : List Char) (codes : List (α × List Char)),
    (leafTraits n).Nodup → (∀ t ∈ leafTraits n, dictGet codes t = none) →
    generate_codes n cur codes = codes ++ codesList n cur := by
  intro n
  induction n with
  | leaf t f =>
    intro cur codes _ hfresh
    rw [generate_codes, codesList, dictSet_fresh codes t cur (hfresh t (by simp [leafTraits]))]
  | internal f l r ihl ihr =>
    intro cur codes hnd hfresh
    rw [leafTraits, List.nodup_append] at hnd
    obtain ⟨hndl, hndr, hdisj⟩ := hnd
    have hfl : ∀ t ∈ leafTraits l, dictGet codes t = none := fun t ht =>
      hfresh t (by rw [leafTraits, List.mem_append]; exact Or.inl ht)
    have hfr : ∀ t ∈ leafTraits r, dictGet (codes ++ codesList l (cur ++ ['0'])) t = none := by
      intro t ht
      rw [dictGet_append_left_none _ _ t
        (hfresh t (by rw [leafTraits, List.mem_append]; exact Or.inr ht))]
      apply dictGet_none_of_not_key
      rw [codesList_keys]
      exact fun hmem => hdisj hmem ht
    rw [generate_codes, ihl _ codes hndl hfl, ihr _ _ hndr hfr, codesList,
      List.append_assoc]

/-! ## Decode traversal -/

/-- On a tree with an internal root, the decode loop can never be sitting on
a leaf (it resets to the root immediately after emitting), so the
`AttributeError` branch is unreachable and decoding always succeeds. -/
theorem decodeLoop_total {α : Type} (tree : HuffmanNode α)
    (htree : tree.isInternalNode = true) :
    ∀ (s : List Char) (cur : HuffmanNode α), cur.isInternalNode = true →
    ∃ out, decodeLoop tree s cur = .ok out := by
  intro s
  induction s with
  | nil => intro cur _; exact ⟨[], rfl⟩
  | cons bit rest ih =>
    intro cur hcur
    cases cur with
    | leaf t f => simp [HuffmanNode.isInternalNode] at hcur
    | internal f l r =>
      simp only [decodeLoop]
      by_cases hb : bit = '0'
      · rw [if_pos hb]
        cases l with
        | leaf t lf =>
          obtain ⟨out, hout⟩ := ih tree htree
          rw [hout]
          exact ⟨t :: out, rfl⟩
        | internal lf a b => exact ih (.internal lf a b) rfl
      · rw [if_neg hb]
        cases r with
        | leaf t rf =>
          obtain ⟨out, hout⟩ := ih tree htree
          rw [hout]
          exact ⟨t :: out, rfl⟩
        | internal rf a b => exact ih (.internal rf a b) rfl

/-- The decode branch test only distinguishes `'0'` from everything else:
collapsing every non-`'0'` character to `'1'` does not change the result. -/
theorem decodeLoop_collapse {α : Type} (tree : HuffmanNode α) :
    ∀ (s : List Char) (cur : HuffmanNode α),
    decodeLoop tree (s.map collapseBit) cur = decodeLoop tree s cur := by
  intro s
  induction s with
  | nil => intro cur; rfl
  | cons bit rest ih =>
    intro cur
    cases cur with
    | leaf t f => rfl
    | internal f l r =>
      simp only [List.map_cons, decodeLoop]
      by_cases hb : bit = '0'
      · have hc : collapseBit bit = '0' := by simp [collapseBit, hb]
        rw [if_pos hb, if_pos hc]
        cases l with
        | leaf t lf => rw [ih tree]
        | internal lf a b => exact ih (.internal lf a b)
      · have hc : ¬ collapseBit bit = '0' := by simp [collapseBit, hb]
        rw [if_neg hb, if_neg hc]
        cases r with
        | leaf t rf => rw [ih tree]
        | internal rf a b => exact ih (.internal rf a b)

/-! ## Encode -/

theorem encodeJoin_ok {α : Type} [DecidableEq α] (codes : List (α × List Char)) :
    ∀ seq : List α, (∀ t ∈ seq, (dictGet codes t).isSome) →
    encodeJoin codes seq = .ok ((seq.map fun t => (dictGet codes t).getD []).flatten) := by
  intro seq
  induction seq with
  | nil => intro _; rfl
  | cons t rest ih =>
    intro h
    obtain ⟨c, hc⟩ := Option.isSome_iff_exists.mp (h t (List.mem_cons_self t rest))
    rw [encodeJoin, hc, ih (fun u hu => h u (List.mem_cons_of_mem t hu))]
    simp [hc]

theorem encodeJoin_err {α : Type} [DecidableEq α] (codes : List (α × List Char)) :
    ∀ seq : List α, (∃ t ∈ seq, dictGet codes t = none) →
    encodeJoin codes seq = .error .keyError := by
  intro seq
  induction seq with
  | nil => intro h; simp at h
  | cons t rest ih =>
    intro h
    rcases hdt : dictGet codes t with _ | c
    · rw [encodeJoin, hdt]
    · obtain ⟨u, hu, hnone⟩ := h
      rcases List.mem_cons.mp hu with rfl | hu'
      · rw [hdt] at hnone; exact absurd hnone (by simp)
      · rw [encodeJoin, hdt, ih ⟨u, hu', hnone⟩]

/-! ## Resolver -/

theorem depLoop_state (g : GenomicDependencyGraph) (genome : List String) :
    ∀ deps : List String, (depLoop g genome deps).1 = (g, genome) := by
  intro deps
  induction deps with
  | nil => rfl
  | cons d ds ih =>
    rw [depLoop]
    split
    · exact ih
    · rfl

theorem depLoop_true_iff (g : GenomicDependencyGraph) (genome : List String) :
    ∀ deps : List String, (depLoop g genome deps).2 = true ↔ ∀ d ∈ deps, d ∈ genome := by
  intro deps
  induction deps with
  | nil => simp [depLoop]
  | cons d ds ih =>
    rw [depLoop]
    by_cases hc : genome.contains d
    · rw [if_pos hc, ih]
      have hd : d ∈ genome := by simpa using hc
      simp only [List.mem_cons]
      constructor
      · rintro h u (rfl | hu)
        · exact hd
        · exact h u hu
      · exact fun h u hu => h u (Or.inr hu)
    · rw [if_neg hc]
      have hd : d ∉ genome := by simpa using hc
      simp only [List.mem_cons]
      constructor
      · intro h; simp at h
      · intro h; exact absurd (h d (Or.inl rfl)) hd

/-! ## Claims -/

/-- C1: the claim states that for every frequency table and every sequence
drawn from its alphabet, `decode(encode(s, table), tree) = s`.  The code
violates this on the single-symbol table `{x: 1}`: the merge loop never
runs, the lone leaf is the root, `generate_codes` assigns it the empty
code, so `encode(["x"])` is the empty bit string and decoding it yields
`[]`, not `["x"]` — contradicting the source's own "without information
loss" documentation.  This theorem evaluates the code at that failing
input. -/
theorem c1_roundtrip_failure :
    build_phenotype_encoder [("x", 1)] = .ok ([("x", [])], .leaf "x" 1) ∧
    encode_phenotype ["x"] [("x", 1)] = .ok ([], [("x", [])]) ∧
    decode_phenotype [] (HuffmanNode.leaf "x" 1) = .ok ([] : List String) ∧
    ([] : List String) ≠ ["x"] :=
  ⟨rfl, rfl, rfl, by decide⟩

/-- C2: `resolve_dependencies` returns `false` when the target id is absent
from the catalog, and otherwise returns `true` iff every identifier in the
target's prerequisite list is in the possessed set. -/
theorem c2_resolver_correct (g : GenomicDependencyGraph) (genome : List String)
    (target : String) :
    (dictGet g.nodes target = none → (resolve_dependencies g genome target).2 = false) ∧
    (∀ tgt : GeneNode, dictGet g.nodes target = some tgt →
      ((resolve_dependencies g genome target).2 = true ↔
        ∀ d ∈ tgt.dependencies, d ∈ genome)) := by
  constructor
  · intro h
    simp only [resolve_dependencies, h]
  · intro tgt h
    simp only [resolve_dependencies, h]
    exact depLoop_true_iff g genome tgt.dependencies

/-- Witness for C2 at the spec's own example catalog
`{A: [], B: [A], C: [B]}` with possessed set `{A, B}` and target `C`. -/
theorem c2_resolver_correct_witness :
    dictGet (GenomicDependencyGraph.mk
      [("A", ⟨"A", "GeneA", 0, []⟩), ("B", ⟨"B", "GeneB", 0, ["A"]⟩),
        ("C", ⟨"C", "GeneC", 0, ["B"]⟩)] []).nodes "C" =
      some ⟨"C", "GeneC", 0, ["B"]⟩ ∧
    ((resolve_dependencies (GenomicDependencyGraph.mk
      [("A", ⟨"A", "GeneA", 0, []⟩), ("B", ⟨"B", "GeneB", 0, ["A"]⟩),
        ("C", ⟨"C", "GeneC", 0, ["B"]⟩)] []) ["A", "B"] "C").2 = true ↔
      ∀ d ∈ (GeneNode.mk "C" "GeneC" 0 ["B"]).dependencies, d ∈ ["A", "B"]) :=
  ⟨rfl, (c2_resolver_correct _ ["A", "B"] "C").2 _ rfl⟩

/-- C3: for every nonempty frequency table (distinct keys, as in a Python
dict), the build succeeds and the generated code table has exactly one code
per table symbol (its keys are a permutation of the table's keys), no two
distinct symbols share a code, and no symbol's code is a prefix of another
symbol's code. -/
theorem c3_codes_prefix_free {α : Type} [DecidableEq α] [Inhabited α]
    (tf : List (α × Nat)) (hne : tf ≠ []) (hnd : (tf.map Prod.fst).Nodup) :
    ∃ codes root, build_phenotype_encoder tf = .ok (codes, root) ∧
      (codes.map Prod.fst).Perm (tf.map Prod.fst) ∧
      (∀ s cs t ct, (s, cs) ∈ codes → (t, ct) ∈ codes → s ≠ t →
        cs ≠ ct ∧ ¬ (cs <+: ct)) := by
  obtain ⟨root, hbuild, htraits, -⟩ := build_ok tf hne
  have hperm : (leafTraits root).Perm (tf.map Prod.fst) := Multiset.coe_eq_coe.mp htraits
  have hndroot : (leafTraits root).Nodup := hperm.nodup_iff.mpr hnd
  have hgen : generate_codes root [] [] = [] ++ codesList root [] :=
    generate_codes_eq_codesList root [] [] hndroot (fun _ _ => rfl)
  rw [List.nil_append] at hgen
  refine ⟨generate_codes root [] [], root, hbuild, ?_, ?_⟩
  · rw [hgen, codesList_keys]
    exact hperm
  · intro s cs t ct hs ht hst
    rw [hgen] at hs ht
    have hnp := codesList_prefixFree root [] s t cs ct hs ht hst
    exact ⟨fun he => hnp (he ▸ List.prefix_refl cs), hnp⟩

/-- Witness for C3 at the table `{a: 1, b: 2}`. -/
theorem c3_codes_prefix_free_witness :
    ([("a", 1), ("b", 2)] : List (String × Nat)) ≠ [] ∧
    (([("a", 1), ("b", 2)] : List (String × Nat)).map Prod.fst).Nodup ∧
    ∃ codes root, build_phenotype_encoder [("a", 1), ("b", 2)] = .ok (codes, root) ∧
      (codes.map Prod.fst).Perm ((([("a", 1), ("b", 2)] : List (String × Nat))).map Prod.fst) ∧
      (∀ s cs t ct, (s, cs) ∈ codes → (t, ct) ∈ codes → s ≠ t →
        cs ≠ ct ∧ ¬ (cs <+: ct)) :=
  ⟨by decide, by decide, c3_codes_prefix_free [("a", 1), ("b", 2)] (by decide) (by decide)⟩

/-- C4: the claim states a single-symbol table yields a valid non-empty
code, a non-empty encoding for `["x","x"]`, and a round trip back to
`["x","x"]`.  The code instead assigns the empty code (the merge loop never
runs, so the root is the lone leaf and the traversal assigns it the running
code `""`), encodes `["x","x"]` to the empty bit string, and decodes that to
`[]`.  This theorem evaluates the code at that failing input. -/
theorem c4_single_symbol_failure :
    build_phenotype_encoder [("x", 1)] = .ok ([("x", [])], .leaf "x" 1) ∧
    dictGet [("x", ([] : List Char))] "x" = some [] ∧
    encode_phenotype ["x", "x"] [("x", 1)] = .ok ([], [("x", [])]) ∧
    decode_phenotype [] (HuffmanNode.leaf "x" 1) = .ok ([] : List String) ∧
    ([] : List String) ≠ ["x", "x"] :=
  ⟨rfl, rfl, rfl, rfl, by decide⟩

/-- C5 (counterexample): the claim states that decode fails with
`MalformedCode` on inputs containing a character other than '0'/'1'
(e.g. "01201") or ending mid-traversal.  On the code tree built from
`{a: 1, b: 2}`, decoding "01201" returns `ok [a, b, b, a, b]` ('2' is
treated as '1'), and on the tree built from `{a: 1, b: 2, c: 4}`, decoding
"0" (which stops on an internal node) returns `ok []`; no error of any kind
is raised. -/
theorem c5_malformed_counterexample :
    build_phenotype_encoder [("a", 1), ("b", 2)] =
      .ok ([("a", ['0']), ("b", ['1'])], .internal 3 (.leaf "a" 1) (.leaf "b" 2)) ∧
    decode_phenotype ['0', '1', '2', '0', '1']
      (HuffmanNode.internal 3 (.leaf "a" 1) (.leaf "b" 2)) =
      .ok ["a", "b", "b", "a", "b"] ∧
    build_phenotype_encoder [("a", 1), ("b", 2), ("c", 4)] =
      .ok ([("a", ['0', '0']), ("b", ['0', '1']), ("c", ['1'])],
        .internal 7 (.internal 3 (.leaf "a" 1) (.leaf "b" 2)) (.leaf "c" 4)) ∧
    decode_phenotype ['0']
      (HuffmanNode.internal 7 (.internal 3 (.leaf "a" 1) (.leaf "b" 2)) (.leaf "c" 4)) =
      .ok ([] : List String) :=
  ⟨rfl, rfl, rfl, rfl⟩

/-- C5 (amended): decode reports no malformed input at all: on any tree
whose root is an internal node it succeeds on every input string, treating
every character other than '0' as '1' (collapsing non-'0' characters to '1'
leaves the result unchanged), and a string ending mid-traversal simply
yields the symbols decoded so far. -/
theorem c5_decode_no_malformed_error {α : Type} (tree : HuffmanNode α)
    (htree : tree.isInternalNode = true) (s : List Char) :
    (∃ out, decode_phenotype s tree = .ok out) ∧
    decode_phenotype (s.map collapseBit) tree = decode_phenotype s tree :=
  ⟨decodeLoop_total tree htree s tree htree, decodeLoop_collapse tree s tree⟩

/-- Witness for the amended C5 at the `{a: 1, b: 2}` tree and input
"01201". -/
theorem c5_decode_no_malformed_error_witness :
    (HuffmanNode.internal 3 (.leaf "a" 1) (.leaf "b" 2)).isInternalNode = true ∧
    ((∃ out, decode_phenotype ['0', '1', '2', '0', '1']
        (HuffmanNode.internal 3 (.leaf "a" 1) (.leaf "b" 2)) = .ok out) ∧
      decode_phenotype (['0', '1', '2', '0', '1'].map collapseBit)
        (HuffmanNode.internal 3 (.leaf "a" 1) (.leaf "b" 2)) =
      decode_phenotype ['0', '1', '2', '0', '1']
        (HuffmanNode.internal 3 (.leaf "a" 1) (.leaf "b" 2))) :=
  ⟨rfl, c5_decode_no_malformed_error
    (HuffmanNode.internal 3 (.leaf "a" 1) (.leaf "b" 2)) rfl ['0', '1', '2', '0', '1']⟩

/-- C6 (counterexample): the claim states that building from an empty
frequency table fails with an `EmptyAlphabet` condition.  The source has no
such condition anywhere: the empty table reaches `root = heap[0]` on an
empty list and fails with a generic `IndexError` (an unrelated error), as
this evaluation shows — `PyErr` enumerates every error the source can
raise, and none of them is an empty-alphabet condition. -/
theorem c6_empty_alphabet_counterexample :
    build_phenotype_encoder ([] : List (String × Nat)) = .error PyErr.indexError :=
  rfl

/-- C6 (amended): building from an empty frequency table does fail and the
failure is surfaced to the immediate caller, but as the generic
`IndexError` from subscripting the empty heap, not as a typed
`EmptyAlphabet` condition (which does not exist in the code). -/
theorem c6_empty_build_index_error {α : Type} [DecidableEq α] [Inhabited α] :
    build_phenotype_encoder ([] : List (α × Nat)) = .error PyErr.indexError := by
  simp [build_phenotype_encoder, pyHeapify, heapifyLoop, buildLoop]

/-- C7: for a code table produced by `build_phenotype_encoder`, encoding a
sequence containing a symbol with no entry in the table fails with the
key-lookup error (`KeyError`, the unknown-symbol failure), and otherwise
returns the concatenation of each symbol's code in input order. -/
theorem c7_encode_unknown_or_concat {α : Type} [DecidableEq α] [Inhabited α]
    (tf : List (α × Nat)) (codes : List (α × List Char)) (root : HuffmanNode α)
    (hbuild : build_phenotype_encoder tf = .ok (codes, root)) (seq : List α) :
    ((∃ t ∈ seq, dictGet codes t = none) →
      encode_phenotype seq tf = .error .keyError) ∧
    ((∀ t ∈ seq, (dictGet codes t).isSome) →
      encode_phenotype seq tf =
        .ok ((seq.map fun t => (dictGet codes t).getD []).flatten, codes)) := by
  constructor
  · intro hmiss
    simp only [encode_phenotype, hbuild]
    rw [encodeJoin_err codes seq hmiss]
  · intro hall
    simp only [encode_phenotype, hbuild]
    rw [encodeJoin_ok codes seq hall]

/-- Witness for C7 at the table `{a: 1, b: 2}`: the sequence `[b, a]` is
fully in the table and encodes to "10"; the sequence `[z]` is not and
fails with the key error. -/
theorem c7_encode_unknown_or_concat_witness :
    build_phenotype_encoder [("a", 1), ("b", 2)] =
      .ok ([("a", ['0']), ("b", ['1'])], .internal 3 (.leaf "a" 1) (.leaf "b" 2)) ∧
    (∀ t ∈ (["b", "a"] : List String), (dictGet [("a", ['0']), ("b", ['1'])] t).isSome) ∧
    encode_phenotype ["b", "a"] [("a", 1), ("b", 2)] =
      .ok (['1', '0'], [("a", ['0']), ("b", ['1'])]) ∧
    (∃ t ∈ (["z"] : List String), dictGet [("a", ['0']), ("b", ['1'])] t = none) ∧
    encode_phenotype ["z"] [("a", 1), ("b", 2)] = .error .keyError :=
  ⟨rfl, by decide,
    (c7_encode_unknown_or_concat [("a", 1), ("b", 2)] [("a", ['0']), ("b", ['1'])]
      (.internal 3 (.leaf "a" 1) (.leaf "b" 2)) (by rfl) ["b", "a"]).2 (by decide),
    ⟨"z", by decide, rfl⟩,
    (c7_encode_unknown_or_concat [("a", 1), ("b", 2)] [("a", ['0']), ("b", ['1'])]
      (.internal 3 (.leaf "a" 1) (.leaf "b" 2)) (by rfl) ["z"]).1
      ⟨"z", by decide, rfl⟩⟩

/-- C8: `build_phenotype_encoder` is a pure function of the
insertion-ordered frequency table — the heapify/pop/push schedule and the
traversal that fills the code dict are all deterministic — so two calls on
the same table give the same code table and tree. -/
theorem c8_build_deterministic {α : Type} [DecidableEq α] [Inhabited α]
    (tf₁ tf₂ : List (α × Nat)) (h : tf₁ = tf₂) :
    build_phenotype_encoder tf₁ = build_phenotype_encoder tf₂ := by
  rw [h]

/-- Witness for C8 at the table `{a: 1, b: 2}`. -/
theorem c8_build_deterministic_witness :
    ([("a", 1), ("b", 2)] : List (String × Nat)) = [("a", 1), ("b", 2)] ∧
    build_phenotype_encoder [("a", 1), ("b", 2)] =
      build_phenotype_encoder [("a", 1), ("b", 2)] :=
  ⟨rfl, c8_build_deterministic [("a", 1), ("b", 2)] [("a", 1), ("b", 2)] rfl⟩

/-- C9: the resolver is a pure query — it returns the catalog and the
possessed set unchanged (in particular it never adds the target or anything
else to the possessed set). -/
theorem c9_resolver_pure (g : GenomicDependencyGraph) (genome : List String)
    (target : String) :
    (resolve_dependencies g genome target).1 = (g, genome) := by
  rcases hdg : dictGet g.nodes target with _ | tgt
  · simp only [resolve_dependencies, hdg]
  · simp only [resolve_dependencies, hdg]
    exact depLoop_state g genome tgt.dependencies

/-- C10: on every frequency table with at least two (distinct) symbols the
build succeeds with an internal root, and decode then terminates with a
plain symbol list on every input string whatsoever — it never reaches a
missing child ('0' descends left, anything else descends right, traversal
restarts at the root after each leaf, and a trailing fragment is silently
dropped), so collapsing every non-'0' character to '1' leaves the result
unchanged and no error is ever returned. -/
theorem c10_decode_total {α : Type} [DecidableEq α] [Inhabited α]
    (tf : List (α × Nat)) (h2 : 2 ≤ tf.length) (hnd : (tf.map Prod.fst).Nodup) :
    ∃ codes root, build_phenotype_encoder tf = .ok (codes, root) ∧
      root.isInternalNode = true ∧
      (∀ s : List Char, ∃ out, decode_phenotype s root = .ok out) ∧
      (∀ s : List Char,
        decode_phenotype (s.map collapseBit) root = decode_phenotype s root) := by
  have hne : tf ≠ [] := by
    intro h
    rw [h] at h2
    simp at h2
  obtain ⟨root, hbuild, -, hint⟩ := build_ok tf hne
  have hroot := hint h2
  exact ⟨_, root, hbuild, hroot,
    fun s => decodeLoop_total root hroot s root hroot,
    fun s => decodeLoop_collapse root s root⟩

/-- Witness for C10 at the table `{a: 1, b: 2}`. -/
theorem c10_decode_total_witness :
    2 ≤ ([("a", 1), ("b", 2)] : List (String × Nat)).length ∧
    (([("a", 1), ("b", 2)] : List (String × Nat)).map Prod.fst).Nodup ∧
    ∃ codes root, build_phenotype_encoder [("a", 1), ("b", 2)] = .ok (codes, root) ∧
      root.isInternalNode = true ∧
      (∀ s : List Char, ∃ out, decode_phenotype s root = .ok out) ∧
      (∀ s : List Char,
        decode_phenotype (s.map collapseBit) root = decode_phenotype s root) :=
  ⟨by decide, by decide, c10_decode_total [("a", 1), ("b", 2)] (by decide) (by decide)⟩
